import Mathlib

/-!
Verification of the genetic-algorithm timetable generator (`timetable_ga.py`).

The Python source is shallowly embedded: genes are records, the fitness
penalty is computed over `ℚ` (Python mixes ints and floats such as `0.5`),
dictionaries become association lists, and every call to the global random
generator becomes a call to an explicit oracle passed in as an argument, so
that properties can be quantified over all random choice sequences and
counterexamples can instantiate a concrete one.
-/

namespace TimetableGA

/-- Constant `HARD_PENALTY = 10**6` from the source. -/
def HARD_PENALTY : ℚ := 10 ^ 6

/-- Constant `SOFT_PENALTY = 5` from the source. -/
def SOFT_PENALTY : ℚ := 5

/-- Constant `ELITE = 4` from the source. -/
def ELITE : Nat := 4

/-- Constant `MUTATION_RATE = 0.2` from the source. -/
def MUTATION_RATE : ℚ := 1 / 5

/-- A course record (`courses.csv` row after type coercion). -/
structure Course where
  course_id : String
  group_id : String
  lectures_per_week : Int
  expected_size : Int
deriving Repr, DecidableEq

/-- A teacher record as built by `preprocess`. -/
structure Teacher where
  name : String
  qualified : List String
  available : List String
  preferred : List String
deriving Repr, DecidableEq

instance : Inhabited Teacher := ⟨⟨"", [], [], []⟩⟩

/-- A room record as built by `preprocess`. -/
structure Room where
  id : String
  cap : Int
  features : String
deriving Repr, DecidableEq

instance : Inhabited Room := ⟨⟨"", 0, ""⟩⟩

/-- A session catalog entry emitted by `build_session_list`. -/
structure Session where
  session_id : String
  course : String
  group : String
  size : Int
deriving Repr, DecidableEq

/-- A gene of a chromosome: a session bound to a (timeslot, room, teacher)
triple, i.e. the dict built by `random_gene`. -/
structure Gene where
  session_id : String
  course : String
  group : String
  size : Int
  timeslot : String
  room : String
  teacher : String
deriving Repr, DecidableEq

instance : Inhabited Gene := ⟨⟨"", "", "", 0, "", "", ""⟩⟩

/-- A candidate schedule (chromosome): the list of genes. -/
abbrev Cand := List Gene

/-- The `teachers` dict of the program: insertion-ordered id/record pairs. -/
def TMap := List (String × Teacher)

/-- The `rooms_map` dict of the program: room id to capacity. -/
def RMap := List (String × Int)

/-- Dictionary access `teachers[tid]` (total, with a default record for ids
that are never looked up by the program). -/
def tlookup (teachers : TMap) (tid : String) : Teacher :=
  ((teachers.find? (fun p => p.1 = tid)).map Prod.snd).getD default

/-- `rooms_map.get(room, 0)`: capacity lookup defaulting to `0`. -/
def rlookup (rooms_map : RMap) (room : String) : Int :=
  ((rooms_map.find? (fun p => p.1 = room)).map Prod.snd).getD 0

/-- `rooms_map.get(room, 0)` when the id is genuinely absent. -/
def roomAbsent (rooms_map : RMap) (room : String) : Prop :=
  rooms_map.find? (fun p => p.1 = room) = none

instance (rooms_map : RMap) (room : String) : Decidable (roomAbsent rooms_map room) := by
  unfold roomAbsent; infer_instance

/-- The comprehension `[tid for tid,t in teachers.items() if course in t.qualified]`. -/
def qualifiedFor (teachers : TMap) (course : String) : List String :=
  (teachers.filter (fun p => course ∈ p.2.qualified)).map Prod.fst

/-- `build_session_list`: expand each course into `lectures_per_week` sessions
`cid_1 .. cid_n` carrying the course id, group id and expected size. -/
def build_session_list (courses : List Course) : List Session :=
  courses.flatMap (fun c =>
    (List.range c.lectures_per_week.toNat).map (fun i =>
      { session_id := c.course_id ++ "_" ++ toString (i + 1),
        course := c.course_id, group := c.group_id, size := c.expected_size }))

/-- The per-gene capacity check of `fitness`: `rooms_map.get(room, 0)` and
`HARD_PENALTY` whenever `size > room_cap`. -/
def capPenalty (rooms_map : RMap) (g : Gene) : ℚ :=
  if rlookup rooms_map g.room < g.size then HARD_PENALTY else 0

/-- Total excess bookings over all occupancy buckets of one key list:
`HARD_PENALTY * (len(lst) - 1)` is charged per key with `len(lst) > 1`. -/
def bucketExcess (keys : List (String × String)) : Nat :=
  keys.dedup.foldl
    (fun acc k => acc + (if 1 < keys.count k then keys.count k - 1 else 0)) 0

/-- The total penalty accumulated by `fitness` over one candidate. -/
def penaltyOf (rooms_map : RMap) (teachers : TMap) (ind : Cand) : ℚ :=
  let capP : ℚ := (ind.map (capPenalty rooms_map)).sum
  let tKeys := ind.map (fun g => (g.timeslot, g.teacher))
  let rKeys := ind.map (fun g => (g.timeslot, g.room))
  let gKeys := ind.map (fun g => (g.timeslot, g.group))
  let conflictP : ℚ :=
    HARD_PENALTY * ((bucketExcess tKeys + bucketExcess rKeys + bucketExcess gKeys : Nat) : ℚ)
  let qualP : ℚ := (ind.map (fun g =>
    if g.course ∈ (tlookup teachers g.teacher).qualified then (0 : ℚ) else HARD_PENALTY)).sum
  let softP : ℚ := (ind.map (fun g =>
    (if g.timeslot ∈ (tlookup teachers g.teacher).available then (0 : ℚ) else SOFT_PENALTY)
      + (if g.timeslot ∈ (tlookup teachers g.teacher).preferred then (-1 : ℚ) else 0))).sum
  let spreadP : ℚ := ((ind.map Gene.teacher).dedup.map (fun t =>
    let slots := (ind.filter (fun g => g.teacher = t)).map Gene.timeslot
    ((max 0 ((slots.dedup.length : ℤ) - 3) : ℤ) : ℚ) * (1 / 2))).sum
  capP + conflictP + qualP + softP + spreadP

/-- `fitness(ind, rooms_map, teachers, groups) = 1.0 / (1 + penalty)` (both
branches of the final `if` return the same expression; `groups` is accepted
but unused, as in the source). -/
def fitness (ind : Cand) (rooms_map : RMap) (teachers : TMap)
    (groups : List (String × (Int × List String))) : ℚ :=
  1 / (1 + penaltyOf rooms_map teachers ind)

/-- Two teachers, both qualified for course `c`, both available on `sA`/`sB`;
`t1` also prefers both slots. -/
def teachers1 : TMap :=
  [("t1", ⟨"T1", ["c"], ["sA", "sB"], ["sA", "sB"]⟩),
   ("t2", ⟨"T2", ["c"], ["sA", "sB"], []⟩)]

/-- A single room `R` of capacity 100. -/
def roomsMap1 : RMap := [("R", 100)]

/-- A conflict-free candidate whose two genes both land on the shared
teacher's preferred slots: its total penalty is `-2`. -/
def prefCand : Cand :=
  [⟨"c_1", "c", "G", 10, "sA", "R", "t1"⟩, ⟨"c_2", "c", "G", 10, "sB", "R", "t1"⟩]

/-- A conflict-free candidate with no availability miss and no preferred
slot: its total penalty is `0`. -/
def calmCand : Cand := [⟨"c_1", "c", "G", 10, "sA", "R", "t2"⟩]

/-- A candidate whose only gene sits on a slot outside its teacher's
available set: its total penalty is `SOFT_PENALTY = 5`. -/
def lateCand : Cand := [⟨"c_1", "c", "G", 10, "sX", "R", "t2"⟩]

/-- C1 counterexample: the preferred-slot reward drives the total penalty of
`prefCand` to `-2`, so its fitness is `1 / (1 + (-2)) = -1`, outside `(0, 1]`;
moreover `penaltyOf prefCand = -2 < 0 = penaltyOf calmCand` while
`fitness prefCand = -1 < 1 = fitness calmCand`, refuting strict
anti-monotonicity of fitness in the penalty. -/
theorem fitness_interval_counterexample :
    penaltyOf roomsMap1 teachers1 prefCand = -2 ∧
      penaltyOf roomsMap1 teachers1 calmCand = 0 ∧
      fitness prefCand roomsMap1 teachers1 [] = -1 ∧
      fitness calmCand roomsMap1 teachers1 [] = 1 ∧
      ¬ 0 < fitness prefCand roomsMap1 teachers1 [] ∧
      ¬ fitness calmCand roomsMap1 teachers1 [] < fitness prefCand roomsMap1 teachers1 [] := by
  norm_num +decide [fitness, penaltyOf, capPenalty, bucketExcess, tlookup, rlookup,
    HARD_PENALTY, SOFT_PENALTY, roomsMap1, teachers1, prefCand, calmCand,
    List.dedup, List.pwFilter, List.count, List.countP, List.foldl]

/-- C1 (amended): for any candidate whose total penalty is nonnegative,
fitness `1 / (1 + P)` lies in `(0, 1]`, and among candidates with nonnegative
penalty it strictly decreases as the penalty increases. (The claim as stated
fails when the preferred-slot reward makes the penalty negative.) -/
theorem fitness_interval_mono (rm : RMap) (te : TMap)
    (gr : List (String × (Int × List String))) (ind1 ind2 : Cand)
    (h1 : 0 ≤ penaltyOf rm te ind1) :
    (0 < fitness ind1 rm te gr ∧ fitness ind1 rm te gr ≤ 1) ∧
      (penaltyOf rm te ind1 < penaltyOf rm te ind2 →
        fitness ind2 rm te gr < fitness ind1 rm te gr) := by
  have hpos : (0 : ℚ) < 1 + penaltyOf rm te ind1 := by linarith
  refine ⟨⟨?_, ?_⟩, ?_⟩
  · exact div_pos one_pos hpos
  · simp only [fitness]
    rw [div_le_one hpos]
    linarith
  · intro hlt
    simp only [fitness]
    exact one_div_lt_one_div_of_lt hpos (by linarith)

/-- Witness for the amended C1: `calmCand` has penalty `0 ≥ 0`, `lateCand`
has penalty `5`, and the theorem applies to the pair. -/
theorem fitness_interval_mono_witness :
    (0 < fitness calmCand roomsMap1 teachers1 [] ∧
        fitness calmCand roomsMap1 teachers1 [] ≤ 1) ∧
      (penaltyOf roomsMap1 teachers1 calmCand < penaltyOf roomsMap1 teachers1 lateCand →
        fitness lateCand roomsMap1 teachers1 [] < fitness calmCand roomsMap1 teachers1 []) :=
  fitness_interval_mono roomsMap1 teachers1 [] calmCand lateCand (by
    norm_num +decide [penaltyOf, capPenalty, bucketExcess, tlookup, rlookup,
      HARD_PENALTY, SOFT_PENALTY, roomsMap1, teachers1, calmCand,
      List.dedup, List.pwFilter, List.count, List.countP, List.foldl])

/-- Lexicographic strict order on strings, via the code points of their
characters (kernel-computable rendering of string comparison). -/
def strLT (a b : String) : Prop := a.data.map Char.toNat < b.data.map Char.toNat

instance : DecidableRel strLT := fun a b => by unfold strLT; infer_instance

/-- Reflexive closure of `strLT`. -/
def strLE (a b : String) : Prop := strLT a b ∨ a = b

instance : DecidableRel strLE := fun a b => by unfold strLE; infer_instance

/-- The (course id, sequence index) identity of each emitted session, in
emission order. -/
def sessionKeys (courses : List Course) : List (String × Nat) :=
  courses.flatMap (fun c =>
    (List.range c.lectures_per_week.toNat).map (fun i => (c.course_id, i + 1)))

/-- Lexicographic order on session identities: by course id, then by
sequence index. -/
def keyLT (k1 k2 : String × Nat) : Prop :=
  strLT k1.1 k2.1 ∨ (k1.1 = k2.1 ∧ k1.2 < k2.2)

instance : DecidableRel keyLT := fun k1 k2 => by unfold keyLT; infer_instance

/-- Unfolding `build_session_list` one course at a time. -/
theorem build_session_list_cons (c : Course) (cs : List Course) :
    build_session_list (c :: cs)
      = ((List.range c.lectures_per_week.toNat).map (fun i =>
          { session_id := c.course_id ++ "_" ++ toString (i + 1),
            course := c.course_id, group := c.group_id, size := c.expected_size : Session }))
        ++ build_session_list cs := by
  simp [build_session_list]

/-- Every session key carries the id of one of the input courses. -/
theorem sessionKeys_fst_mem (courses : List Course) (k : String × Nat)
    (hk : k ∈ sessionKeys courses) :
    k.1 ∈ courses.map Course.course_id := by
  simp only [sessionKeys, List.mem_flatMap, List.mem_map] at hk
  obtain ⟨c, hc, i, hi, rfl⟩ := hk
  exact List.mem_map.mpr ⟨c, hc, rfl⟩

/-- C8 counterexample: `build_session_list` keeps the input course order, so
for the input `[B, A]` the emitted sessions are not ordered by course id. -/
theorem build_session_list_order_counterexample :
    (build_session_list [⟨"B", "G", 1, 10⟩, ⟨"A", "G", 1, 10⟩]).map Session.course
        = ["B", "A"] ∧
      ¬ ((build_session_list [⟨"B", "G", 1, 10⟩, ⟨"A", "G", 1, 10⟩]).map
          Session.course).Pairwise strLE := by
  decide

/-- C8 (amended): the session catalog contains exactly `Σ lectures_per_week`
sessions (with negative values clamped to `0` as Python's `range` does); the
sessions deterministically follow the *input course order*, each course
contributing `lectures_per_week` copies of its (course, group, size) triple
with session ids `cid_1 .. cid_n` in sequence; and whenever the input courses
are strictly sorted by course id, the emitted session identities are sorted
by course id and then by sequence index. -/
theorem build_session_list_count_order (courses : List Course) :
    (build_session_list courses).length
        = (courses.map (fun c => c.lectures_per_week.toNat)).sum ∧
      (build_session_list courses).map (fun s => (s.course, s.group, s.size))
          = courses.flatMap (fun c =>
              List.replicate c.lectures_per_week.toNat
                (c.course_id, c.group_id, c.expected_size)) ∧
      (build_session_list courses).map Session.session_id
          = (sessionKeys courses).map (fun k => k.1 ++ "_" ++ toString k.2) ∧
      ((courses.map Course.course_id).Pairwise strLT →
        (sessionKeys courses).Pairwise keyLT) := by
  refine ⟨?_, ?_, ?_, ?_⟩
  · induction courses with
    | nil => rfl
    | cons c cs ih => simp [build_session_list_cons, ih]
  · induction courses with
    | nil => rfl
    | cons c cs ih =>
      simp [build_session_list_cons, ih, List.map_map, Function.comp_def,
        List.map_const', List.length_range]
  · induction courses with
    | nil => rfl
    | cons c cs ih =>
      simp [build_session_list_cons, ih, sessionKeys, List.map_map, Function.comp_def]
  · intro h
    induction courses with
    | nil => exact List.Pairwise.nil
    | cons c cs ih =>
      simp only [List.map_cons, List.pairwise_cons] at h
      obtain ⟨h1, h2⟩ := h
      simp only [sessionKeys, List.flatMap_cons]
      rw [List.pairwise_append]
      refine ⟨?_, ih h2, ?_⟩
      · rw [List.pairwise_map]
        refine List.Pairwise.imp ?_ (List.pairwise_lt_range _)
        intro i j hij
        exact Or.inr ⟨rfl, by omega⟩
      · intro a ha b hb
        simp only [List.mem_map] at ha
        obtain ⟨i, hi, rfl⟩ := ha
        exact Or.inl (h1 _ (sessionKeys_fst_mem cs b hb))

/-- Witness for the amended C8: for a two-course input strictly sorted by
course id, the emitted session identities come out sorted. -/
theorem build_session_list_count_order_witness :
    (sessionKeys [⟨"A", "G", 2, 10⟩, ⟨"B", "G", 1, 20⟩]).Pairwise keyLT :=
  (build_session_list_count_order [⟨"A", "G", 2, 10⟩, ⟨"B", "G", 1, 20⟩]).2.2.2 (by decide)

/-- `crossover(a, b)`: single-point crossover at the cut `pt` drawn by the
caller from `randint(1, n-1)`; for `n = len(a) < 2` the parents are returned
unchanged (deep copies in Python, plain values here). -/
def crossover (pt : Nat) (a b : Cand) : Cand × Cand :=
  if a.length < 2 then (a, b)
  else (a.take pt ++ b.drop pt, b.take pt ++ a.drop pt)

/-- C4: for equal-length parents sharing the session ordering of the catalog
(the population invariant), and any cut in `[1, n-1]`, crossover returns the
positional prefix/suffix recombination, each child keeps the parents' session
id list exactly (hence the same multiset, nothing duplicated or dropped), and
for `n < 2` the parents are returned unchanged. -/
theorem crossover_recombination (a b : Cand) (pt : Nat)
    (hlen : a.length = b.length)
    (hids : a.map Gene.session_id = b.map Gene.session_id) :
    (a.length < 2 → crossover pt a b = (a, b)) ∧
      (2 ≤ a.length → 1 ≤ pt → pt ≤ a.length - 1 →
        crossover pt a b = (a.take pt ++ b.drop pt, b.take pt ++ a.drop pt)) ∧
      (crossover pt a b).1.map Gene.session_id = a.map Gene.session_id ∧
      (crossover pt a b).2.map Gene.session_id = a.map Gene.session_id ∧
      Multiset.ofList ((crossover pt a b).1.map Gene.session_id)
        = Multiset.ofList (a.map Gene.session_id) ∧
      Multiset.ofList ((crossover pt a b).2.map Gene.session_id)
        = Multiset.ofList (a.map Gene.session_id) := by
  have h1 : (crossover pt a b).1.map Gene.session_id = a.map Gene.session_id := by
    by_cases h : a.length < 2
    · simp [crossover, h]
    · simp only [crossover, if_neg h, List.map_append, List.map_take, List.map_drop]
      rw [← hids, List.take_append_drop]
  have h2 : (crossover pt a b).2.map Gene.session_id = a.map Gene.session_id := by
    by_cases h : a.length < 2
    · simp [crossover, h, hids]
    · simp only [crossover, if_neg h, List.map_append, List.map_take, List.map_drop]
      rw [← hids, List.take_append_drop]
  refine ⟨fun h => by simp [crossover, h], fun h _ _ => by simp [crossover, Nat.not_lt.mpr h],
    h1, h2, by rw [h1], by rw [h2]⟩

/-- Witness for C4 at a concrete pair of two-gene parents with cut `pt = 1`. -/
theorem crossover_recombination_witness :
    (crossover 1 prefCand [⟨"c_1", "c", "G", 10, "sB", "R", "t2"⟩,
          ⟨"c_2", "c", "G", 10, "sA", "R", "t2"⟩]).1.map Gene.session_id
        = prefCand.map Gene.session_id ∧
      (crossover 1 prefCand [⟨"c_1", "c", "G", 10, "sB", "R", "t2"⟩,
          ⟨"c_2", "c", "G", 10, "sA", "R", "t2"⟩]).2.map Gene.session_id
        = prefCand.map Gene.session_id := by
  refine ⟨?_, ?_⟩
  · exact (crossover_recombination prefCand
      [⟨"c_1", "c", "G", 10, "sB", "R", "t2"⟩, ⟨"c_2", "c", "G", 10, "sA", "R", "t2"⟩]
      1 (by decide) (by decide)).2.2.1
  · exact (crossover_recombination prefCand
      [⟨"c_1", "c", "G", 10, "sB", "R", "t2"⟩, ⟨"c_2", "c", "G", 10, "sA", "R", "t2"⟩]
      1 (by decide) (by decide)).2.2.2.1

/-- The random draws `mutate` makes for gene `i`: the `random.random()` roll,
the choice among `['timeslot','room','teacher']` (taken modulo 3), and the
`random.choice` from whichever list the chosen branch samples. -/
structure MutOracle where
  rand : Nat → ℚ
  fieldChoice : Nat → Nat
  pick : Nat → List String → String

/-- The body of `mutate`'s loop for gene `i`: with probability
`mutation_rate` replace exactly one of timeslot (preferring the teacher's
available slots when non-empty), room, or teacher (preferring qualified
teachers when any exist). -/
def mutateGene (mo : MutOracle) (i : Nat) (gene : Gene)
    (timeslots rooms_ids : List String) (teachers : TMap) (mutation_rate : ℚ) : Gene :=
  if mo.rand i < mutation_rate then
    match mo.fieldChoice i % 3 with
    | 0 =>
      let avail := (tlookup teachers gene.teacher).available
      if avail.isEmpty then { gene with timeslot := mo.pick i timeslots }
      else { gene with timeslot := mo.pick i avail }
    | 1 => { gene with room := mo.pick i rooms_ids }
    | _ =>
      let qualified := qualifiedFor teachers gene.course
      { gene with teacher :=
          if qualified.isEmpty then mo.pick i (teachers.map Prod.fst)
          else mo.pick i qualified }
  else gene

/-- `for i in range(len(ind))` of `mutate`, threading the gene index. -/
def mutateFrom (mo : MutOracle) (timeslots rooms_ids : List String) (teachers : TMap)
    (mutation_rate : ℚ) : Nat → List Gene → List Gene
  | _, [] => []
  | i, g :: rest =>
    mutateGene mo i g timeslots rooms_ids teachers mutation_rate
      :: mutateFrom mo timeslots rooms_ids teachers mutation_rate (i + 1) rest

/-- `mutate(ind, timeslots, rooms_ids, teachers, mutation_rate)`. -/
def mutate (mo : MutOracle) (ind : Cand) (timeslots rooms_ids : List String)
    (teachers : TMap) (mutation_rate : ℚ) : Cand :=
  mutateFrom mo timeslots rooms_ids teachers mutation_rate 0 ind

/-- The frame relation of C6: identity fields untouched and at most one of
the three binding fields replaced. -/
def mutFrame (gNew gOld : Gene) : Prop :=
  gNew.session_id = gOld.session_id ∧ gNew.course = gOld.course ∧
    gNew.group = gOld.group ∧ gNew.size = gOld.size ∧
    ((gNew.timeslot = gOld.timeslot ∧ gNew.room = gOld.room) ∨
      (gNew.timeslot = gOld.timeslot ∧ gNew.teacher = gOld.teacher) ∨
      (gNew.room = gOld.room ∧ gNew.teacher = gOld.teacher))

/-- One `mutateGene` call satisfies the frame relation. -/
theorem mutateGene_frame (mo : MutOracle) (i : Nat) (g : Gene)
    (ts rid : List String) (te : TMap) (rate : ℚ) :
    mutFrame (mutateGene mo i g ts rid te rate) g := by
  unfold mutateGene mutFrame
  split
  · split
    · dsimp only
      split <;> simp
    · simp
    · dsimp only
      split <;> simp
  · simp

/-- C6: for every candidate and every random choice sequence, mutation keeps
every gene's session id, course id, group id and size, and replaces at most
one of the three binding fields of each gene, leaving the other two
unchanged (the replaced field is exactly one of timeslot, room, teacher for
a gene whose probability roll fires, and none otherwise). -/
theorem mutate_frame (mo : MutOracle) (ind : Cand) (ts rid : List String)
    (te : TMap) (rate : ℚ) :
    (mutate mo ind ts rid te rate).length = ind.length ∧
      List.Forall₂ mutFrame (mutate mo ind ts rid te rate) ind := by
  have key : ∀ (l : List Gene) (i : Nat),
      List.Forall₂ mutFrame (mutateFrom mo ts rid te rate i l) l := by
    intro l
    induction l with
    | nil => exact fun _ => List.Forall₂.nil
    | cons g rest ih =>
      intro i
      exact List.Forall₂.cons (mutateGene_frame mo i g ts rid te rate) (ih (i + 1))
  exact ⟨(key ind 0).length_eq, key ind 0⟩

/-- The pairwise part of `repair`'s `conflicts_count`: walk the candidate
with enumeration index `j`, skip `j == index`, and for every other gene
sharing the timeslot add one per shared teacher, room and group. -/
def conflictsAux (gene : Gene) (index : Nat) : Nat → List Gene → Nat
  | _, [] => 0
  | j, other :: rest =>
    (if j = index then 0
     else if gene.timeslot = other.timeslot then
       (if gene.teacher = other.teacher then 1 else 0)
         + (if gene.room = other.room then 1 else 0)
         + (if gene.group = other.group then 1 else 0)
     else 0)
      + conflictsAux gene index (j + 1) rest

/-- `conflicts_count(gene, index, current)` from `repair`: pairwise clashes
plus one for a capacity violation (`rooms_map.get(room, 0)`) plus one for an
unqualified teacher. -/
def conflicts_count (rooms_map : RMap) (teachers : TMap) (gene : Gene)
    (index : Nat) (current : List Gene) : Nat :=
  conflictsAux gene index 0 current
    + (if rlookup rooms_map gene.room < gene.size then 1 else 0)
    + (if gene.course ∈ (tlookup teachers gene.teacher).qualified then 0 else 1)

/-- The random draws `repair` makes while processing gene `i`: the three
`random.sample` calls building the bounded trial set, and the three
`random.choice` calls of the last-resort randomization. -/
structure RepOracle where
  sampleT : Nat → List String → Nat → List String
  sampleS : Nat → String → List String → Nat → List String
  sampleR : Nat → String → String → List String → Nat → List String
  randT : Nat → List String → String
  randS : Nat → List String → String
  randR : Nat → List String → String

/-- The bounded trial set `attempts` built for gene `i`: up to 4 sampled
candidate teachers, for each up to 5 timeslots from the teacher's available
set (or all timeslots when it is empty), for each up to 3 rooms. -/
def repairAttempts (ro : RepOracle) (timeslots rooms_ids : List String)
    (teachers : TMap) (i : Nat) (g : Gene) : List (String × String × String) :=
  let ct := qualifiedFor teachers g.course
  let candidate_teachers := if ct.isEmpty then teachers.map Prod.fst else ct
  (ro.sampleT i candidate_teachers (min candidate_teachers.length 4)).flatMap (fun t =>
    let avail0 := (tlookup teachers t).available
    let avail := if avail0.isEmpty then timeslots else avail0
    (ro.sampleS i t avail (min avail.length 5)).flatMap (fun ts =>
      (ro.sampleR i t ts rooms_ids (min rooms_ids.length 3)).map (fun r => (t, ts, r))))

/-- Rebinding of the three mutable fields used by both repair branches. -/
def rebind (g : Gene) (t ts r : String) : Gene :=
  { g with teacher := t, timeslot := ts, room := r }

/-- The first trial of `attempts` with zero conflicts against the current
state that also satisfies the capacity constraint. -/
def findTrial (ro : RepOracle) (timeslots rooms_ids : List String)
    (teachers : TMap) (rooms_map : RMap) (current : List Gene) (i : Nat)
    (g : Gene) : Option (String × String × String) :=
  (repairAttempts ro timeslots rooms_ids teachers i g).find? (fun p =>
    decide (conflicts_count rooms_map teachers (rebind g p.1 p.2.1 p.2.2) i current = 0)
      && decide (g.size ≤ rlookup rooms_map p.2.2))

/-- `repair`'s loop body for gene `i`: if the gene is currently in conflict,
adopt the first succeeding trial, else fall back to a uniformly random
reassignment of teacher, timeslot and room. -/
def repairStep (ro : RepOracle) (timeslots rooms_ids : List String)
    (teachers : TMap) (rooms_map : RMap) (current : List Gene) (i : Nat) : List Gene :=
  match current[i]? with
  | none => current
  | some g =>
    if 0 < conflicts_count rooms_map teachers g i current then
      match findTrial ro timeslots rooms_ids teachers rooms_map current i g with
      | some (t, ts, r) => current.set i (rebind g t ts r)
      | none =>
        current.set i (rebind g (ro.randT i (teachers.map Prod.fst))
          (ro.randS i timeslots) (ro.randR i rooms_ids))
    else current

/-- `repair(ind, timeslots, rooms_ids, teachers, rooms_map)`: process every
gene index in order against the progressively repaired candidate. -/
def repair (ro : RepOracle) (ind : Cand) (timeslots rooms_ids : List String)
    (teachers : TMap) (rooms_map : RMap) : Cand :=
  (List.range ind.length).foldl (repairStep ro timeslots rooms_ids teachers rooms_map) ind

/-- The four fields of a gene that identify its session. -/
def idFields (g : Gene) : String × String × String × Int :=
  (g.session_id, g.course, g.group, g.size)

/-- Rebinding touches none of the identity fields. -/
@[simp] theorem idFields_rebind (g : Gene) (t a b : String) :
    idFields (rebind g t a b) = idFields g := rfl

/-- Replacing the gene at `i` by a rebinding of the gene already there
changes no identity field at any position. -/
theorem set_rebind_idFields (cur : List Gene) (i j : Nat) (g : Gene)
    (t a b : String) (hg : cur[i]? = some g) :
    ((cur.set i (rebind g t a b))[j]?).map idFields = (cur[j]?).map idFields := by
  rw [List.getElem?_set]
  by_cases hij : i = j
  · subst hij
    have hlt : i < cur.length := by
      by_contra hcon
      rw [List.getElem?_eq_none (Nat.le_of_not_lt hcon)] at hg
      cases hg
    simp [hlt, hg]
  · simp [hij]

/-- One `repairStep` changes no identity field at any position. -/
theorem repairStep_idFields (ro : RepOracle) (ts rid : List String) (te : TMap)
    (rm : RMap) (cur : List Gene) (i j : Nat) :
    ((repairStep ro ts rid te rm cur i)[j]?).map idFields = (cur[j]?).map idFields := by
  unfold repairStep
  cases hg : cur[i]? with
  | none => rfl
  | some g =>
    dsimp only
    split
    · cases hf : findTrial ro ts rid te rm cur i g with
      | none => exact set_rebind_idFields cur i j g _ _ _ hg
      | some p =>
        obtain ⟨t, tsv, r⟩ := p
        exact set_rebind_idFields cur i j g t tsv r hg
    · rfl

/-- One `repairStep` preserves the candidate's length. -/
theorem repairStep_length (ro : RepOracle) (ts rid : List String) (te : TMap)
    (rm : RMap) (cur : List Gene) (i : Nat) :
    (repairStep ro ts rid te rm cur i).length = cur.length := by
  unfold repairStep
  cases cur[i]? with
  | none => rfl
  | some g =>
    dsimp only
    split
    · cases findTrial ro ts rid te rm cur i g with
      | none => exact cur.length_set ..
      | some p => obtain ⟨t, tsv, r⟩ := p; exact cur.length_set ..
    · rfl

/-- The whole repair fold changes no identity field at any position. -/
theorem repair_foldl_idFields (ro : RepOracle) (ts rid : List String)
    (te : TMap) (rm : RMap) (idxs : List Nat) :
    ∀ (cur : List Gene) (j : Nat),
      ((idxs.foldl (repairStep ro ts rid te rm) cur)[j]?).map idFields
        = (cur[j]?).map idFields := by
  induction idxs with
  | nil => intro cur j; rfl
  | cons i rest ih =>
    intro cur j
    rw [List.foldl_cons, ih, repairStep_idFields]

/-- The whole repair fold preserves length. -/
theorem repair_foldl_length (ro : RepOracle) (ts rid : List String)
    (te : TMap) (rm : RMap) (idxs : List Nat) :
    ∀ cur : List Gene,
      (idxs.foldl (repairStep ro ts rid te rm) cur).length = cur.length := by
  induction idxs with
  | nil => intro cur; rfl
  | cons i rest ih => intro cur; rw [List.foldl_cons, ih, repairStep_length]

/-- C10: for every candidate and every random choice sequence, repair
returns a list of the same length in which every gene keeps its session id,
course id, group id and size — both the adopted-trial branch and the
last-resort randomization rebind only timeslot, room and teacher. -/
theorem repair_preserves_identity (ro : RepOracle) (ind : Cand)
    (ts rid : List String) (te : TMap) (rm : RMap) :
    (repair ro ind ts rid te rm).length = ind.length ∧
      ∀ j : Nat, ((repair ro ind ts rid te rm)[j]?).map idFields
        = (ind[j]?).map idFields :=
  ⟨repair_foldl_length ro ts rid te rm (List.range ind.length) ind,
    fun j => repair_foldl_idFields ro ts rid te rm (List.range ind.length) ind j⟩

/-- C9: a gene whose room id is absent from the room-capacity map is treated
as assigned to a room of capacity `0`, so with a positive session size it
always incurs the capacity hard penalty inside `fitness` and always counts
at least one (capacity) conflict in `repair`'s `conflicts_count`, whatever
the rest of the candidate looks like. -/
theorem missing_room_capacity_penalty (rm : RMap) (g : Gene)
    (habs : roomAbsent rm g.room) (hsize : 0 < g.size) :
    rlookup rm g.room = 0 ∧
      capPenalty rm g = HARD_PENALTY ∧
      ∀ (te : TMap) (i : Nat) (cur : List Gene),
        1 ≤ conflicts_count rm te g i cur := by
  have hzero : rlookup rm g.room = 0 := by
    unfold rlookup
    unfold roomAbsent at habs
    rw [habs]
    rfl
  have hlt : rlookup rm g.room < g.size := by rw [hzero]; exact hsize
  refine ⟨hzero, ?_, ?_⟩
  · unfold capPenalty
    rw [if_pos hlt]
  · intro te i cur
    unfold conflicts_count
    rw [if_pos hlt]
    omega

/-- Witness for C9: the gene of `lateCand` moved to an unknown room `X`. -/
theorem missing_room_capacity_penalty_witness :
    rlookup roomsMap1 "X" = 0 ∧
      capPenalty roomsMap1 ⟨"c_1", "c", "G", 10, "sA", "X", "t1"⟩ = HARD_PENALTY ∧
      ∀ (te : TMap) (i : Nat) (cur : List Gene),
        1 ≤ conflicts_count roomsMap1 te ⟨"c_1", "c", "G", 10, "sA", "X", "t1"⟩ i cur :=
  missing_room_capacity_penalty roomsMap1 ⟨"c_1", "c", "G", 10, "sA", "X", "t1"⟩
    (by decide) (by decide)

/-- The pairwise conflict walk ignores the entry at the skipped index, so
replacing that entry leaves it unchanged. -/
theorem conflictsAux_set (gene x : Gene) :
    ∀ (l : List Gene) (i j : Nat),
      conflictsAux gene (j + i) j (l.set i x) = conflictsAux gene (j + i) j l := by
  intro l
  induction l with
  | nil => intro i j; rfl
  | cons a rest ih =>
    intro i j
    cases i with
    | zero =>
      simp [List.set_cons_zero, conflictsAux]
    | succ n =>
      simp only [List.set_cons_succ, conflictsAux]
      have harith : j + (n + 1) = (j + 1) + n := by omega
      rw [harith, ih n (j + 1)]

/-- `conflicts_count` of a gene at index `i` is unchanged when position `i`
of the candidate is overwritten. -/
theorem conflicts_count_set (rm : RMap) (te : TMap) (gene x : Gene)
    (l : List Gene) (i : Nat) :
    conflicts_count rm te gene i (l.set i x) = conflicts_count rm te gene i l := by
  unfold conflicts_count
  have h := conflictsAux_set gene x l i 0
  rw [Nat.zero_add] at h
  rw [h]

/-- C2 (amended): whenever `repair` adopts a trial for a gene in conflict,
the adopted gene has zero conflicts against the candidate state in which it
is installed — in particular its conflict count does not exceed the
pre-repair count that triggered the repair. (The last-resort randomization
taken when no trial succeeds carries no such guarantee, and can increase the
count, as the counterexample shows.) -/
theorem repair_trial_adoption (ro : RepOracle) (ts rid : List String)
    (te : TMap) (rm : RMap) (current : List Gene) (i : Nat) (g : Gene)
    (t tsv r : String)
    (hg : current[i]? = some g)
    (hc : 0 < conflicts_count rm te g i current)
    (hf : findTrial ro ts rid te rm current i g = some (t, tsv, r)) :
    repairStep ro ts rid te rm current i = current.set i (rebind g t tsv r) ∧
      conflicts_count rm te (rebind g t tsv r) i
          (repairStep ro ts rid te rm current i) = 0 ∧
      conflicts_count rm te (rebind g t tsv r) i
          (repairStep ro ts rid te rm current i)
        ≤ conflicts_count rm te g i current := by
  have hstep : repairStep ro ts rid te rm current i
      = current.set i (rebind g t tsv r) := by
    unfold repairStep
    rw [hg]
    dsimp only
    rw [if_pos hc, hf]
  have hzero : conflicts_count rm te (rebind g t tsv r) i
      (repairStep ro ts rid te rm current i) = 0 := by
    rw [hstep, conflicts_count_set]
    have hp := List.find?_some hf
    simp only [Bool.and_eq_true, decide_eq_true_eq] at hp
    exact hp.1
  exact ⟨hstep, hzero, by omega⟩

/-- Teacher table for the repair examples: one teacher qualified for `c`,
available on both slots. -/
def cexTe : TMap := [("t1", ⟨"T1", ["c"], ["s1", "s2"], []⟩)]

/-- Room table for the repair counterexample: the only room has capacity 0,
so no trial can ever satisfy the capacity constraint. -/
def cexRm : RMap := [("r", 0)]

/-- Two genes of the same course/group on distinct slots in the zero-capacity
room. -/
def cexInd : Cand :=
  [⟨"a_1", "c", "G", 1, "s1", "r", "t1"⟩, ⟨"a_2", "c", "G", 1, "s2", "r", "t1"⟩]

/-- A realizable random sequence: samples take the first `k` elements, the
fallback picks the head teacher/room but the *second* timeslot. -/
def cexRo : RepOracle :=
  ⟨fun _ l k => l.take k, fun _ _ l k => l.take k, fun _ _ _ l k => l.take k,
    fun _ l => l.headD "", fun _ l => l.getD 1 "", fun _ l => l.headD ""⟩

/-- C2 counterexample: gene 0 starts with a single (capacity) conflict; every
trial fails the capacity check, so the last-resort randomization moves it
onto gene 1's timeslot, and its post-repair conflict count rises from 1
to 4. -/
theorem repair_conflict_counterexample :
    conflicts_count cexRm cexTe (cexInd.getD 0 default) 0 cexInd = 1 ∧
      conflicts_count cexRm cexTe
          ((repair cexRo cexInd ["s1", "s2"] ["r"] cexTe cexRm).getD 0 default) 0
          (repair cexRo cexInd ["s1", "s2"] ["r"] cexTe cexRm) = 4 ∧
      ¬ conflicts_count cexRm cexTe
            ((repair cexRo cexInd ["s1", "s2"] ["r"] cexTe cexRm).getD 0 default) 0
            (repair cexRo cexInd ["s1", "s2"] ["r"] cexTe cexRm)
          ≤ conflicts_count cexRm cexTe (cexInd.getD 0 default) 0 cexInd := by
  decide

/-- Teacher/room tables for the adoption witness: capacity 10 room, one
qualified teacher. -/
def witTe : TMap := [("t1", ⟨"T1", ["c"], ["s1"], []⟩)]

/-- Room table for the adoption witness. -/
def witRm : RMap := [("r", 10)]

/-- A gene taught by an unknown (hence unqualified) teacher. -/
def witG : Gene := ⟨"a_1", "c", "G", 1, "s1", "r", "tX"⟩

/-- Witness for the amended C2: on `[witG]` the first trial is adopted and
the installed gene has zero conflicts, no more than the one it started
with. -/
theorem repair_trial_adoption_witness :
    repairStep cexRo ["s1"] ["r"] witTe witRm [witG] 0
        = [witG].set 0 (rebind witG "t1" "s1" "r") ∧
      conflicts_count witRm witTe (rebind witG "t1" "s1" "r") 0
          (repairStep cexRo ["s1"] ["r"] witTe witRm [witG] 0) = 0 ∧
      conflicts_count witRm witTe (rebind witG "t1" "s1" "r") 0
          (repairStep cexRo ["s1"] ["r"] witTe witRm [witG] 0)
        ≤ conflicts_count witRm witTe witG 0 [witG] :=
  repair_trial_adoption cexRo ["s1"] ["r"] witTe witRm [witG] 0 witG "t1" "s1" "r"
    (by decide) (by decide) (by decide)

/-- Constant `TOURNAMENT_K = 3` from the source (the sample size the oracle
is asked for; the index list it returns plays the role of
`random.sample(range(len(pop)), k)`). -/
def TOURNAMENT_K : Nat := 3

/-- All random draws of one GA run: per-individual/per-session choices of
initialization, and per-generation/per-slot tournament samples, crossover
cuts, and the mutation/repair oracles of each child. -/
structure GAOracle where
  initT : Nat → Nat → List String → String
  initS : Nat → Nat → List String → String
  initR : Nat → Nat → List Room → Room
  tourn : Nat → Nat → Nat → List Nat
  cut : Nat → Nat → Nat
  mo : Nat → Nat → Nat → MutOracle
  ro : Nat → Nat → Nat → RepOracle

/-- `random_gene(session, timeslots, rooms, teachers)`: qualified teacher
when any exist (else any teacher), any timeslot, any room. -/
def random_gene (pickT pickS : List String → String) (pickR : List Room → Room)
    (session : Session) (timeslots : List String) (rooms : List Room)
    (teachers : TMap) : Gene :=
  let qualified_teachers := qualifiedFor teachers session.course
  let qt := if qualified_teachers.isEmpty then teachers.map Prod.fst
            else qualified_teachers
  { session_id := session.session_id, course := session.course,
    group := session.group, size := session.size,
    timeslot := pickS timeslots, room := (pickR rooms).id, teacher := pickT qt }

/-- `init_individual(sessions, timeslots, rooms, teachers)` for individual
`p`, one random gene per session. -/
def init_individual (o : GAOracle) (p : Nat) (sessions : List Session)
    (timeslots : List String) (rooms : List Room) (teachers : TMap) : Cand :=
  sessions.enum.map (fun ik =>
    random_gene (o.initT p ik.1) (o.initS p ik.1) (o.initR p ik.1) ik.2
      timeslots rooms teachers)

/-- `tournament(pop, fitnesses, k)`: among the sampled indices, the first
one of maximal fitness wins (Python's `max` keeps the earliest maximum); the
winner is returned as an independent copy. -/
def tournament (inds : List Nat) (pop : List Cand) (fitnesses : List ℚ) : Cand :=
  match inds with
  | [] => []
  | i0 :: rest =>
    let best := rest.foldl
      (fun b i => if fitnesses.getD b (-1) < fitnesses.getD i (-1) then i else b) i0
    pop.getD best []

/-- The best-ever update loop of `run_ga`: scan the fitness list in order
and replace the tracked pair only on a strict improvement. -/
def trackBest (pop : List Cand) (fitnesses : List ℚ)
    (best : Option Cand × ℚ) : Option Cand × ℚ :=
  (fitnesses.zip pop).foldl
    (fun b fp => if b.2 < fp.1 then (some fp.2, fp.1) else b) best

/-- The `while len(newpop) < pop_size` loop of `run_ga`: breed a pair from
two tournament parents, append the first child, and append the second only
if the target size is not yet reached. -/
def breedFill (o : GAOracle) (gen : Nat) (timeslots rooms_ids : List String)
    (teachers : TMap) (rooms_map : RMap) (pop : List Cand)
    (fitnesses : List ℚ) : Nat → Nat → List Cand
  | _, 0 => []
  | slot, Nat.succ m =>
    let p1 := tournament (o.tourn gen slot 0) pop fitnesses
    let p2 := tournament (o.tourn gen slot 1) pop fitnesses
    let c := crossover (o.cut gen slot) p1 p2
    let c1 := repair (o.ro gen slot 0)
      (mutate (o.mo gen slot 0) c.1 timeslots rooms_ids teachers MUTATION_RATE)
      timeslots rooms_ids teachers rooms_map
    let c2 := repair (o.ro gen slot 1)
      (mutate (o.mo gen slot 1) c.2 timeslots rooms_ids teachers MUTATION_RATE)
      timeslots rooms_ids teachers rooms_map
    match m with
    | 0 => [c1]
    | Nat.succ m2 =>
      c1 :: c2 :: breedFill o gen timeslots rooms_ids teachers rooms_map
        pop fitnesses (slot + 1) m2

/-- One BREEDING step of `run_ga`: stable-sort the population indices by
fitness descending, copy the top-`ELITE` individuals unchanged, and fill the
remainder with bred children. -/
def nextGeneration (o : GAOracle) (gen : Nat) (timeslots rooms_ids : List String)
    (teachers : TMap) (rooms_map : RMap) (pop_size : Nat) (pop : List Cand)
    (fitnesses : List ℚ) : List Cand :=
  let sorted_idx := (List.range pop.length).mergeSort (fun i j =>
    decide (fitnesses.getD j (-1) ≤ fitnesses.getD i (-1)))
  let elites := (sorted_idx.take ELITE).map (fun i => pop.getD i [])
  elites ++ breedFill o gen timeslots rooms_ids teachers rooms_map pop fitnesses 0
    (pop_size - elites.length)

/-- The `for gen in range(generations)` loop of `run_ga`: evaluate, track
the best-ever pair, stop early past the near-perfect threshold `0.999999`,
otherwise breed and continue. -/
def gaLoop (o : GAOracle) (timeslots rooms_ids : List String) (teachers : TMap)
    (rooms_map : RMap) (groups : List (String × (Int × List String)))
    (pop_size : Nat) : Nat → List Cand → Option Cand × ℚ → Nat → Option Cand × ℚ
  | _, _, best, 0 => best
  | gen, pop, best, Nat.succ rem =>
    let fitnesses := pop.map (fun ind => fitness ind rooms_map teachers groups)
    let best2 := trackBest pop fitnesses best
    if (999999 : ℚ) / 1000000 < best2.2 then best2
    else gaLoop o timeslots rooms_ids teachers rooms_map groups pop_size
      (gen + 1)
      (nextGeneration o gen timeslots rooms_ids teachers rooms_map pop_size pop fitnesses)
      best2 rem

/-- `run_ga(sessions, timeslots, rooms, teachers, groups, pop_size,
generations)`: build the lookup maps and the initial population, then run
the generational loop starting from the sentinel best `(None, -1)`. -/
def run_ga (o : GAOracle) (sessions : List Session) (timeslots : List String)
    (rooms : List Room) (teachers : TMap)
    (groups : List (String × (Int × List String)))
    (pop_size generations : Nat) : Option Cand × ℚ :=
  gaLoop o timeslots (rooms.map Room.id) teachers
    (rooms.map (fun r => (r.id, r.cap))) groups pop_size 0
    ((List.range pop_size).map
      (fun p => init_individual o p sessions timeslots rooms teachers))
    (none, -1) generations

/-- Maximum of a list of fitness values (0 for the empty list; only used
on populations). -/
def maxQ : List ℚ → ℚ
  | [] => 0
  | x :: xs => xs.foldl max x

/-- The running maximum dominates its seed. -/
theorem le_foldl_max (b : ℚ) (l : List ℚ) : b ≤ l.foldl max b := by
  induction l generalizing b with
  | nil => exact le_refl b
  | cons x xs ih => exact le_trans (le_max_left b x) (ih (max b x))

/-- The running maximum dominates every element. -/
theorem mem_le_foldl_max (x : ℚ) (l : List ℚ) (b : ℚ) (hx : x ∈ l) :
    x ≤ l.foldl max b := by
  induction l generalizing b with
  | nil => cases hx
  | cons y ys ih =>
    rcases List.mem_cons.mp hx with rfl | hmem
    · exact le_trans (le_max_right b x) (le_foldl_max _ ys)
    · exact ih (max b y) hmem

/-- Every member of a list is at most its maximum. -/
theorem le_maxQ_of_mem (x : ℚ) (l : List ℚ) (hx : x ∈ l) : x ≤ maxQ l := by
  cases l with
  | nil => cases hx
  | cons y ys =>
    rcases List.mem_cons.mp hx with rfl | hmem
    · exact le_foldl_max x ys
    · exact mem_le_foldl_max x ys y hmem

/-- A fold of `max` returns its seed or some member. -/
theorem foldl_max_mem (b : ℚ) (l : List ℚ) : l.foldl max b = b ∨ l.foldl max b ∈ l := by
  induction l generalizing b with
  | nil => exact Or.inl rfl
  | cons x xs ih =>
    rw [List.foldl_cons]
    rcases ih (max b x) with h | h
    · rcases le_total b x with hbx | hxb
      · right
        rw [h, max_eq_right hbx]
        exact List.mem_cons_self ..
      · left
        rw [h, max_eq_left hxb]
    · right
      exact List.mem_cons_of_mem x h

/-- The maximum of a non-empty list is one of its members. -/
theorem maxQ_mem (l : List ℚ) (hne : l ≠ []) : maxQ l ∈ l := by
  cases l with
  | nil => exact absurd rfl hne
  | cons y ys =>
    show ys.foldl max y ∈ y :: ys
    rcases foldl_max_mem y ys with h | h
    · rw [h]; exact List.mem_cons_self ..
    · exact List.mem_cons_of_mem y h

/-- Lookup with default through a fitness map. -/
theorem getD_map_fit (F : Cand → ℚ) (pop : List Cand) (k : Nat) (hk : k < pop.length) :
    (pop.map F).getD k (-1) = F (pop.getD k []) := by
  rw [List.getD_eq_getElem _ _ (by simpa using hk), List.getD_eq_getElem _ _ hk,
    List.getElem_map]

/-- The maximum fitness of a non-empty population is attained at an index. -/
theorem maxQ_exists_index (F : Cand → ℚ) (pop : List Cand) (hne : pop ≠ []) :
    ∃ k, k < pop.length ∧ maxQ (pop.map F) = (pop.map F).getD k (-1) := by
  have hmm : maxQ (pop.map F) ∈ pop.map F :=
    maxQ_mem _ (by simpa using hne)
  obtain ⟨k, hk, hval⟩ := List.mem_iff_getElem.mp hmm
  refine ⟨k, by simpa using hk, ?_⟩
  rw [List.getD_eq_getElem _ _ hk, hval]

/-- C5: one BREEDING step never loses the best individual: with `ELITE = 4`
copies of the fittest individuals prepended unchanged, the maximum fitness
of the next generation is at least the maximum fitness of the current
non-empty population, whatever children the rest of the breeding fills in
(fitness is a deterministic function of a candidate). -/
theorem elitism_best_fitness (o : GAOracle) (gen : Nat) (ts rid : List String)
    (te : TMap) (rm : RMap) (gr : List (String × (Int × List String)))
    (pop_size : Nat) (pop : List Cand) (hne : pop ≠ []) :
    maxQ (pop.map (fun ind => fitness ind rm te gr))
      ≤ maxQ ((nextGeneration o gen ts rid te rm pop_size pop
          (pop.map (fun ind => fitness ind rm te gr))).map
            (fun ind => fitness ind rm te gr)) := by
  set F : Cand → ℚ := fun ind => fitness ind rm te gr with hF
  set fits := pop.map F with hfits
  set le : Nat → Nat → Bool := fun i j => decide (fits.getD j (-1) ≤ fits.getD i (-1)) with hle
  set sidx := (List.range pop.length).mergeSort le with hsidx
  have hperm : List.Perm sidx (List.range pop.length) := List.mergeSort_perm _ _
  have hlen : sidx.length = pop.length := by
    rw [hperm.length_eq, List.length_range]
  have hnen : 0 < pop.length := List.length_pos.mpr hne
  have hsne : sidx ≠ [] := by
    intro hcon
    rw [hcon] at hlen
    simp at hlen
    omega
  obtain ⟨i0, rest, hcons⟩ := List.exists_cons_of_ne_nil hsne
  have hpair : sidx.Pairwise (fun a b => le a b) := by
    apply List.sorted_mergeSort
    · intro a b c hab hbc
      simp only [hle, decide_eq_true_eq] at hab hbc ⊢
      exact le_trans hbc hab
    · intro a b
      simp only [hle, Bool.or_eq_true, decide_eq_true_eq]
      exact le_total _ _
  have hdom : ∀ j ∈ sidx, fits.getD j (-1) ≤ fits.getD i0 (-1) := by
    intro j hj
    rw [hcons] at hj hpair
    rcases List.mem_cons.mp hj with rfl | hjr
    · exact le_refl _
    · have := (List.pairwise_cons.mp hpair).1 j hjr
      simpa [hle] using this
  have hi0mem : i0 ∈ List.range pop.length := by
    rw [← hperm.mem_iff, hcons]
    exact List.mem_cons_self ..
  have hi0lt : i0 < pop.length := List.mem_range.mp hi0mem
  obtain ⟨k, hk, hmaxk⟩ := maxQ_exists_index F pop hne
  have hstep1 : maxQ fits ≤ fits.getD i0 (-1) := by
    rw [← hfits] at hmaxk
    rw [hmaxk]
    apply hdom
    rw [hperm.mem_iff]
    exact List.mem_range.mpr hk
  have hstep2 : fits.getD i0 (-1) = F (pop.getD i0 []) := by
    rw [hfits]
    exact getD_map_fit F pop i0 hi0lt
  have hmem2 : pop.getD i0 [] ∈ nextGeneration o gen ts rid te rm pop_size pop fits := by
    unfold nextGeneration
    rw [← hle, ← hsidx, hcons]
    apply List.mem_append_left
    show pop.getD i0 [] ∈ (List.take ELITE (i0 :: rest)).map (fun i => pop.getD i [])
    rw [show ELITE = 3 + 1 from rfl, List.take_succ_cons]
    exact List.mem_cons_self ..
  calc maxQ fits ≤ fits.getD i0 (-1) := hstep1
    _ = F (pop.getD i0 []) := hstep2
    _ ≤ maxQ ((nextGeneration o gen ts rid te rm pop_size pop fits).map F) := by
        apply le_maxQ_of_mem
        exact List.mem_map.mpr ⟨_, hmem2, rfl⟩


/-- Mutation oracle that never fires (its roll `1` is at least any rate used
by the program). -/
def trivMo : MutOracle := ⟨fun _ => 1, fun _ => 0, fun _ l => l.headD ""⟩

/-- Repair oracle sampling list prefixes and choosing list heads. -/
def trivRo : RepOracle :=
  ⟨fun _ l k => l.take k, fun _ _ l k => l.take k, fun _ _ _ l k => l.take k,
    fun _ l => l.headD "", fun _ l => l.headD "", fun _ l => l.headD ""⟩

/-- A realizable run oracle: heads of lists, tournament sample `[0]`,
cut `1`. -/
def trivOracle : GAOracle :=
  ⟨fun _ _ l => l.headD "", fun _ _ l => l.headD "", fun _ _ rl => rl.headD default,
    fun _ _ _ => [0], fun _ _ => 1, fun _ _ _ => trivMo, fun _ _ _ => trivRo⟩

/-- Witness for C5 on the one-candidate population `[calmCand]`. -/
theorem elitism_best_fitness_witness :
    maxQ ([calmCand].map (fun ind => fitness ind roomsMap1 teachers1 []))
      ≤ maxQ ((nextGeneration trivOracle 0 ["sA", "sB"] ["R"] teachers1 roomsMap1 1
          [calmCand] ([calmCand].map (fun ind => fitness ind roomsMap1 teachers1 []))).map
            (fun ind => fitness ind roomsMap1 teachers1 [])) :=
  elitism_best_fitness trivOracle 0 ["sA", "sB"] ["R"] teachers1 roomsMap1 [] 1
    [calmCand] (by decide)

/-- Pairs of a fitness-zipped population carry the fitness of their own
candidate. -/
theorem zip_map_fst (F : Cand → ℚ) (pop : List Cand) :
    ∀ p ∈ (pop.map F).zip pop, p.1 = F p.2 := by
  induction pop with
  | nil => intro p hp; cases hp
  | cons c rest ih =>
    intro p hp
    rcases List.mem_cons.mp hp with rfl | hmem
    · rfl
    · exact ih p hmem

/-- Every population member appears in the fitness-zipped list with its own
fitness. -/
theorem mem_zip_map (F : Cand → ℚ) (pop : List Cand) (ind : Cand)
    (h : ind ∈ pop) : (F ind, ind) ∈ (pop.map F).zip pop := by
  induction pop with
  | nil => cases h
  | cons c rest ih =>
    rcases List.mem_cons.mp h with rfl | hmem
    · exact List.mem_cons_self ..
    · exact List.mem_cons_of_mem _ (ih hmem)

/-- The best-tracking fold leaves the pair untouched when no fitness strictly
exceeds the current best (ties keep the earlier-found best). -/
theorem track_no_update (l : List (ℚ × Cand)) (st : Option Cand × ℚ)
    (h : ∀ p ∈ l, p.1 ≤ st.2) :
    l.foldl (fun b fp => if b.2 < fp.1 then (some fp.2, fp.1) else b) st = st := by
  induction l with
  | nil => rfl
  | cons p rest ih =>
    rw [List.foldl_cons, if_neg (not_lt.mpr (h p (List.mem_cons_self ..)))]
    exact ih (fun q hq => h q (List.mem_cons_of_mem _ hq))

/-- The tracked fitness only grows, and dominates every scanned fitness. -/
theorem track_snd_ge (l : List (ℚ × Cand)) :
    ∀ st : Option Cand × ℚ,
      st.2 ≤ (l.foldl (fun b fp => if b.2 < fp.1 then (some fp.2, fp.1) else b) st).2 ∧
      ∀ p ∈ l, p.1 ≤ (l.foldl (fun b fp => if b.2 < fp.1 then (some fp.2, fp.1) else b) st).2 := by
  induction l with
  | nil => exact fun st => ⟨le_refl _, fun p hp => absurd hp (List.not_mem_nil p)⟩
  | cons q rest ih =>
    intro st
    rw [List.foldl_cons]
    by_cases h : st.2 < q.1
    · rw [if_pos h]
      refine ⟨le_trans (le_of_lt h) ?_, fun p hp => ?_⟩
      · exact (ih (some q.2, q.1)).1
      · rcases List.mem_cons.mp hp with rfl | hmem
        · exact (ih (some p.2, p.1)).1
        · exact (ih (some q.2, q.1)).2 p hmem
    · rw [if_neg h]
      refine ⟨(ih st).1, fun p hp => ?_⟩
      rcases List.mem_cons.mp hp with rfl | hmem
      · exact le_trans (not_lt.mp h) (ih st).1
      · exact (ih st).2 p hmem

/-- The best-tracking fold returns its input pair or some candidate paired
with that candidate's own fitness. -/
theorem track_form (F : Cand → ℚ) (l : List (ℚ × Cand)) :
    ∀ st : Option Cand × ℚ, (∀ p ∈ l, p.1 = F p.2) →
      l.foldl (fun b fp => if b.2 < fp.1 then (some fp.2, fp.1) else b) st = st ∨
        ∃ c, l.foldl (fun b fp => if b.2 < fp.1 then (some fp.2, fp.1) else b) st
          = (some c, F c) := by
  induction l with
  | nil => exact fun st _ => Or.inl rfl
  | cons q rest ih =>
    intro st hF
    rw [List.foldl_cons]
    by_cases h : st.2 < q.1
    · rw [if_pos h]
      right
      rcases ih (some q.2, q.1) (fun p hp => hF p (List.mem_cons_of_mem _ hp)) with
        heq | ⟨c, hc⟩
      · exact ⟨q.2, by rw [heq, hF q (List.mem_cons_self ..)]⟩
      · exact ⟨c, hc⟩
    · rw [if_neg h]
      exact ih st (fun p hp => hF p (List.mem_cons_of_mem _ hp))

/-- Once the tracked best is a candidate paired with its own fitness, the
generational loop returns a pair of that shape. -/
theorem gaLoop_consistent (o : GAOracle) (ts rid : List String) (te : TMap)
    (rm : RMap) (gr : List (String × (Int × List String))) (ps : Nat) :
    ∀ (rem gen : Nat) (pop : List Cand) (best : Option Cand × ℚ),
      (∃ c, best = (some c, fitness c rm te gr)) →
      ∃ c, gaLoop o ts rid te rm gr ps gen pop best rem
        = (some c, fitness c rm te gr) := by
  intro rem
  induction rem with
  | zero => exact fun gen pop best h => h
  | succ rem ih =>
    intro gen pop best hbest
    show ∃ c, gaLoop o ts rid te rm gr ps gen pop best (rem + 1)
      = (some c, fitness c rm te gr)
    rw [gaLoop]
    have hform := track_form (fun c => fitness c rm te gr)
      ((pop.map (fun ind => fitness ind rm te gr)).zip pop)
      best (zip_map_fst _ pop)
    split
    · unfold trackBest
      rcases hform with heq | hex
      · rw [heq]; exact hbest
      · exact hex
    · apply ih
      unfold trackBest
      rcases hform with heq | hex
      · rw [heq]; exact hbest
      · exact hex


/-- If some individual of the first evaluated population beats the sentinel
fitness `-1`, the loop returns a best-ever candidate with its own fitness. -/
theorem gaLoop_first (o : GAOracle) (ts rid : List String) (te : TMap)
    (rm : RMap) (gr : List (String × (Int × List String))) (ps gen rem : Nat)
    (pop : List Cand)
    (hx : ∃ ind ∈ pop, -1 < fitness ind rm te gr) :
    ∃ c, gaLoop o ts rid te rm gr ps gen pop (none, -1) (rem + 1)
      = (some c, fitness c rm te gr) := by
  rw [gaLoop]
  obtain ⟨ind, hmem, hgt⟩ := hx
  set F : Cand → ℚ := fun c => fitness c rm te gr with hF
  have hzmem := mem_zip_map F pop ind hmem
  have hge := (track_snd_ge ((pop.map F).zip pop) (none, -1)).2 (F ind, ind) hzmem
  have hform := track_form F ((pop.map F).zip pop) (none, -1) (zip_map_fst F pop)
  have hbest2 : ∃ c, trackBest pop (pop.map F) (none, -1) = (some c, F c) := by
    unfold trackBest
    rcases hform with heq | hex
    · exfalso
      rw [heq] at hge
      simp only at hge
      have : F ind ≤ -1 := hge
      linarith
    · exact hex
  obtain ⟨c, hc⟩ := hbest2
  split
  · exact ⟨c, hc⟩
  · apply gaLoop_consistent
    exact ⟨c, hc⟩

/-- Ghost mirror of `gaLoop` that collects every individual the loop
evaluates: the current population of each iteration, up to and including the
one at which the loop stops (early exit or generation budget). -/
def gaLoopPops (o : GAOracle) (ts rid : List String) (te : TMap) (rm : RMap)
    (gr : List (String × (Int × List String))) (ps : Nat) :
    Nat → List Cand → Option Cand × ℚ → Nat → List Cand
  | _, _, _, 0 => []
  | gen, pop, best, Nat.succ rem =>
    if (999999 : ℚ) / 1000000
        < (trackBest pop (pop.map (fun ind => fitness ind rm te gr)) best).2 then pop
    else pop ++ gaLoopPops o ts rid te rm gr ps (gen + 1)
      (nextGeneration o gen ts rid te rm ps pop
        (pop.map (fun ind => fitness ind rm te gr)))
      (trackBest pop (pop.map (fun ind => fitness ind rm te gr)) best) rem

/-- Whenever at least one generation runs, the starting population is among
the evaluated individuals. -/
theorem gaLoopPops_superset (o : GAOracle) (ts rid : List String) (te : TMap)
    (rm : RMap) (gr : List (String × (Int × List String))) (ps gen : Nat)
    (pop : List Cand) (best : Option Cand × ℚ) (rem : Nat) :
    ∀ ind ∈ pop, ind ∈ gaLoopPops o ts rid te rm gr ps gen pop best (rem + 1) := by
  intro ind h
  rw [gaLoopPops]
  split
  · exact h
  · exact List.mem_append_left _ h

/-- The tracked best fitness never decreases across the loop. -/
theorem gaLoop_snd_mono (o : GAOracle) (ts rid : List String) (te : TMap)
    (rm : RMap) (gr : List (String × (Int × List String))) (ps : Nat) :
    ∀ (rem gen : Nat) (pop : List Cand) (best : Option Cand × ℚ),
      best.2 ≤ (gaLoop o ts rid te rm gr ps gen pop best rem).2 := by
  intro rem
  induction rem with
  | zero => intro gen pop best; exact le_refl best.2
  | succ rem ih =>
    intro gen pop best
    rw [gaLoop]
    split
    · exact (track_snd_ge ((pop.map (fun ind => fitness ind rm te gr)).zip pop) best).1
    · exact le_trans
        (track_snd_ge ((pop.map (fun ind => fitness ind rm te gr)).zip pop) best).1
        (ih (gen + 1) _ _)

/-- The fitness the loop returns dominates every individual it evaluated. -/
theorem gaLoop_pops_dominated (o : GAOracle) (ts rid : List String) (te : TMap)
    (rm : RMap) (gr : List (String × (Int × List String))) (ps : Nat) :
    ∀ (rem gen : Nat) (pop : List Cand) (best : Option Cand × ℚ),
      ∀ ind ∈ gaLoopPops o ts rid te rm gr ps gen pop best rem,
        fitness ind rm te gr ≤ (gaLoop o ts rid te rm gr ps gen pop best rem).2 := by
  intro rem
  induction rem with
  | zero =>
    intro gen pop best ind hind
    rw [gaLoopPops] at hind
    cases hind
  | succ rem ih =>
    intro gen pop best ind hind
    rw [gaLoopPops] at hind
    rw [gaLoop]
    split
    · next hcond =>
      rw [if_pos hcond] at hind
      have := (track_snd_ge ((pop.map (fun i => fitness i rm te gr)).zip pop) best).2
        (fitness ind rm te gr, ind) (mem_zip_map _ pop ind hind)
      exact this
    · next hcond =>
      rw [if_neg hcond] at hind
      rcases List.mem_append.mp hind with h | h
      · refine le_trans ?_ (gaLoop_snd_mono o ts rid te rm gr ps rem (gen + 1) _ _)
        exact (track_snd_ge ((pop.map (fun i => fitness i rm te gr)).zip pop) best).2
          (fitness ind rm te gr, ind) (mem_zip_map _ pop ind h)
      · exact ih (gen + 1) _ _ ind h


/-- C7 (amended): the orchestrator updates the tracked best only on a strict
fitness improvement (ties keep the earlier-found best), and — provided some
individual of the initial population has fitness above the `-1` sentinel —
it returns the best-ever candidate together with that candidate's own
fitness: a fitness that dominates every individual of every generation the
loop evaluated (in particular the whole initial population), with no
feasibility check on the result. (Without the sentinel proviso the claim
fails: a run whose individuals all have fitness `≤ -1` never updates the
best and returns `(None, -1)`, as the counterexample shows.) -/
theorem run_ga_best_tracking :
    (∀ (pop : List Cand) (fits : List ℚ) (b : Option Cand) (bf : ℚ),
        (∀ fv ∈ fits, fv ≤ bf) → trackBest pop fits (b, bf) = (b, bf)) ∧
      (∀ (o : GAOracle) (sessions : List Session) (ts : List String)
          (rooms : List Room) (te : TMap)
          (gr : List (String × (Int × List String))) (ps gens : Nat),
        1 ≤ gens →
        (∃ ind ∈ (List.range ps).map
            (fun p => init_individual o p sessions ts rooms te),
          -1 < fitness ind (rooms.map (fun r => (r.id, r.cap))) te gr) →
        ∃ c, run_ga o sessions ts rooms te gr ps gens
            = (some c, fitness c (rooms.map (fun r => (r.id, r.cap))) te gr) ∧
          (∀ ind ∈ gaLoopPops o ts (rooms.map Room.id) te
              (rooms.map (fun r => (r.id, r.cap))) gr ps 0
              ((List.range ps).map
                (fun p => init_individual o p sessions ts rooms te))
              (none, -1) gens,
            fitness ind (rooms.map (fun r => (r.id, r.cap))) te gr
              ≤ fitness c (rooms.map (fun r => (r.id, r.cap))) te gr) ∧
          (∀ ind ∈ (List.range ps).map
              (fun p => init_individual o p sessions ts rooms te),
            fitness ind (rooms.map (fun r => (r.id, r.cap))) te gr
              ≤ fitness c (rooms.map (fun r => (r.id, r.cap))) te gr)) := by
  constructor
  · intro pop fits b bf h
    unfold trackBest
    apply track_no_update
    intro p hp
    obtain ⟨f, cand⟩ := p
    exact h f (List.of_mem_zip hp).1
  · intro o sessions ts rooms te gr ps gens hg hx
    unfold run_ga
    obtain ⟨rem, rfl⟩ : ∃ rem, gens = rem + 1 := ⟨gens - 1, by omega⟩
    have h1 : ∃ c, gaLoop o ts (rooms.map Room.id) te
        (rooms.map (fun r => (r.id, r.cap))) gr ps 0
        ((List.range ps).map (fun p => init_individual o p sessions ts rooms te))
        (none, -1) (rem + 1)
        = (some c, fitness c (rooms.map (fun r => (r.id, r.cap))) te gr) := by
      apply gaLoop_first
      exact hx
    obtain ⟨c, hc⟩ := h1
    have hdom : ∀ ind ∈ gaLoopPops o ts (rooms.map Room.id) te
        (rooms.map (fun r => (r.id, r.cap))) gr ps 0
        ((List.range ps).map (fun p => init_individual o p sessions ts rooms te))
        (none, -1) (rem + 1),
        fitness ind (rooms.map (fun r => (r.id, r.cap))) te gr
          ≤ fitness c (rooms.map (fun r => (r.id, r.cap))) te gr := by
      intro ind hind
      have hd : fitness ind (rooms.map (fun r => (r.id, r.cap))) te gr
          ≤ (gaLoop o ts (rooms.map Room.id) te
              (rooms.map (fun r => (r.id, r.cap))) gr ps 0
              ((List.range ps).map
                (fun p => init_individual o p sessions ts rooms te))
              (none, -1) (rem + 1)).2 := by
        apply gaLoop_pops_dominated
        exact hind
      rw [hc] at hd
      exact hd
    refine ⟨c, hc, hdom, fun ind hind => hdom ind ?_⟩
    apply gaLoopPops_superset
    exact hind

/-- The single room of the run examples. -/
def roomR : Room := ⟨"R", 100, ""⟩

/-- A realizable oracle whose initialization puts the two sessions on the
teacher's two preferred slots, producing a population of penalty `-2`. -/
def sickOracle : GAOracle :=
  ⟨fun _ _ l => l.headD "", fun _ k l => l.getD k "", fun _ _ rl => rl.headD default,
    fun _ _ _ => [0], fun _ _ => 1, fun _ _ _ => trivMo, fun _ _ _ => trivRo⟩

/-- A single-generation loop whose individuals all have fitness at most the
sentinel `-1` never updates the best and returns `(none, -1)`. -/
theorem gaLoop_one_stuck (o : GAOracle) (ts rid : List String) (te : TMap)
    (rm : RMap) (gr : List (String × (Int × List String))) (ps gen : Nat)
    (pop : List Cand) (hall : ∀ ind ∈ pop, fitness ind rm te gr ≤ -1) :
    gaLoop o ts rid te rm gr ps gen pop (none, -1) 1 = (none, -1) := by
  rw [gaLoop]
  have hnoupd : trackBest pop (pop.map (fun ind => fitness ind rm te gr)) (none, -1)
      = (none, -1) := by
    unfold trackBest
    apply track_no_update
    intro p hp
    obtain ⟨f, cand⟩ := p
    have h1 := zip_map_fst (fun ind => fitness ind rm te gr) pop (f, cand) hp
    simp only at h1
    rw [h1]
    exact hall cand (List.of_mem_zip hp).2
  split
  · next hcond =>
    exfalso
    rw [hnoupd] at hcond
    norm_num at hcond
  · rw [hnoupd]
    rfl

/-- C7 counterexample: a run with the non-empty population `[prefCand]`
(fitness exactly `-1`, reachable through the preferred-slot rewards) never
updates the sentinel best and returns `(None, -1)` instead of a best-ever
candidate. -/
theorem run_ga_sentinel_counterexample :
    ((List.range 1).map (fun p => init_individual sickOracle p
        (build_session_list [⟨"c", "G", 2, 10⟩]) ["sA", "sB"] [roomR] teachers1)
      = [prefCand]) ∧
      run_ga sickOracle (build_session_list [⟨"c", "G", 2, 10⟩]) ["sA", "sB"]
          [roomR] teachers1 [] 1 1 = (none, -1) := by
  have hpop : (List.range 1).map (fun p => init_individual sickOracle p
      (build_session_list [⟨"c", "G", 2, 10⟩]) ["sA", "sB"] [roomR] teachers1)
      = [prefCand] := by decide
  refine ⟨hpop, ?_⟩
  unfold run_ga
  rw [hpop]
  apply gaLoop_one_stuck
  intro ind hind
  rw [List.mem_singleton.mp hind]
  have hfit : fitness prefCand ([roomR].map (fun r => (r.id, r.cap))) teachers1 [] = -1 := by
    norm_num +decide [fitness, penaltyOf, capPenalty, bucketExcess, tlookup, rlookup,
      HARD_PENALTY, SOFT_PENALTY, roomR, teachers1, prefCand,
      List.dedup, List.pwFilter, List.count, List.countP, List.foldl]
  rw [hfit]

/-- Witness for the amended C7: a healthy one-generation run returns a
candidate with its fitness, dominating everything evaluated. -/
theorem run_ga_best_tracking_witness :
    ∃ c, run_ga trivOracle [] ["sA"] [roomR] teachers1 [] 1 1
        = (some c, fitness c ([roomR].map (fun r => (r.id, r.cap))) teachers1 []) ∧
      (∀ ind ∈ gaLoopPops trivOracle ["sA"] ([roomR].map Room.id) teachers1
          ([roomR].map (fun r => (r.id, r.cap))) [] 1 0
          ((List.range 1).map
            (fun p => init_individual trivOracle p [] ["sA"] [roomR] teachers1))
          (none, -1) 1,
        fitness ind ([roomR].map (fun r => (r.id, r.cap))) teachers1 []
          ≤ fitness c ([roomR].map (fun r => (r.id, r.cap))) teachers1 []) ∧
      (∀ ind ∈ (List.range 1).map
          (fun p => init_individual trivOracle p [] ["sA"] [roomR] teachers1),
        fitness ind ([roomR].map (fun r => (r.id, r.cap))) teachers1 []
          ≤ fitness c ([roomR].map (fun r => (r.id, r.cap))) teachers1 []) :=
  run_ga_best_tracking.2 trivOracle [] ["sA"] [roomR] teachers1 [] 1 1
    (by omega)
    (by
      refine ⟨[], by decide, ?_⟩
      norm_num [fitness, penaltyOf, bucketExcess, List.dedup, List.pwFilter])


/-- With population size `0` the loop runs every generation with an empty
population and returns the sentinel pair. -/
theorem gaLoop_empty (o : GAOracle) (ts rid : List String) (te : TMap)
    (rm : RMap) (gr : List (String × (Int × List String))) :
    ∀ (rem gen : Nat), gaLoop o ts rid te rm gr 0 gen [] (none, -1) rem = (none, -1) := by
  intro rem
  induction rem with
  | zero => intro gen; rfl
  | succ rem ih =>
    intro gen
    rw [gaLoop]
    split
    · next hcond =>
      exfalso
      norm_num [trackBest] at hcond
    · have hnext : nextGeneration o gen ts rid te rm 0 []
          (List.map (fun ind => fitness ind rm te gr) []) = [] := by
        simp [nextGeneration, breedFill]
      rw [hnext]
      exact ih (gen + 1)

/-- C3: `run_ga` performs no configuration validation. With zero sessions it
runs a generation over empty candidates and returns an empty schedule with
fitness `1` (the near-perfect exit) instead of reporting a fatal error; with
population size `0` it runs all generations over an empty population and
returns `(None, -1)` — in neither case is a fatal configuration error
reported before the generations run. -/
theorem run_ga_no_config_validation :
    run_ga trivOracle [] ["sA"] [roomR] teachers1 [] 1 1 = (some [], 1) ∧
      run_ga trivOracle (build_session_list [⟨"c", "G", 1, 10⟩]) ["sA"] [roomR]
          teachers1 [] 0 3 = (none, -1) := by
  constructor
  · unfold run_ga
    rw [show (List.range 1).map
        (fun p => init_individual trivOracle p [] ["sA"] [roomR] teachers1) = [[]]
      from by decide]
    rw [gaLoop]
    have hfit : fitness [] [(roomR.id, roomR.cap)] teachers1 [] = 1 := by
      norm_num [fitness, penaltyOf, bucketExcess, List.dedup]
    simp only [List.map_cons, List.map_nil, trackBest, List.zip_cons_cons,
      List.zip_nil_right, List.foldl_cons, List.foldl_nil, hfit]
    norm_num
  · unfold run_ga
    rw [show (List.range 0).map (fun p => init_individual trivOracle p
        (build_session_list [⟨"c", "G", 1, 10⟩]) ["sA"] [roomR] teachers1) = []
      from by decide]
    apply gaLoop_empty

end TimetableGA
